import Mathlib

/-!
Verification of the channel/room subscription manager (lib/channel-manager.js).

Shallow embedding: the manager state is the in-memory subscriber registry
(subscribers object, nextId counter) together with the set of channels
currently subscribed on the dedicated redis subscription connection
(subConn).  JavaScript objects with string keys are modelled as association
lists; objects with numeric listener ids are modelled as lists of pairs kept
in ascending id order, matching the ascending numeric iteration order of
integer-like keys in JavaScript objects (which is what lodash forEach sees).
Redis sets used for room membership are modelled by a store mapping keys to
duplicate-free member lists; redis deletes a set key when it becomes empty.
A listener callback is modelled by its observable behaviour on invocation:
it either returns normally or throws a given error value.
-/

namespace SSE

abbrev Channel := String
abbrev Msg := String
abbrev Room := String

/-- Observable behaviour of a listener callback on one invocation:
`throws = none` means it returns normally, `throws = some e` means the
invocation throws error `e`. -/
structure Callback where
  throws : Option String
deriving DecidableEq, Repr

/-- A callback that returns normally. -/
def cbOk : Callback := ⟨none⟩

/-- A callback that throws the given error. -/
def cbThrow (e : String) : Callback := ⟨some e⟩

/-! ### Association lists (JavaScript objects keyed by strings) -/

/-- Read a property of a JavaScript object: first binding of the key. -/
def alistGet {α : Type} : List (String × α) → String → Option α
  | [], _ => none
  | (k, v) :: rest, k₀ => if k₀ = k then some v else alistGet rest k₀

/-- Assign a property of a JavaScript object: replace the binding if the key
is present, otherwise add it. -/
def alistSet {α : Type} : List (String × α) → String → α → List (String × α)
  | [], k₀, v₀ => [(k₀, v₀)]
  | (k, v) :: rest, k₀, v₀ =>
    if k₀ = k then (k₀, v₀) :: rest else (k, v) :: alistSet rest k₀ v₀

/-- Delete a property of a JavaScript object. -/
def alistDel {α : Type} : List (String × α) → String → List (String × α)
  | [], _ => []
  | (k, v) :: rest, k₀ =>
    if k₀ = k then alistDel rest k₀ else (k, v) :: alistDel rest k₀

/-! ### The listener table of one channel (JavaScript object keyed by
numeric listener ids, iterated in ascending id order) -/

/-- Assignment of `subs[id] = fn`: insert in ascending id order, replacing
an existing binding of the same id. -/
def putListener : List (Nat × Callback) → Nat → Callback → List (Nat × Callback)
  | [], id, fn => [(id, fn)]
  | (i, g) :: rest, id, fn =>
    if id < i then (id, fn) :: (i, g) :: rest
    else if id = i then (id, fn) :: rest
    else (i, g) :: putListener rest id fn

/-! ### ChannelManager state and operations (lib/channel-manager.js) -/

/-- State of one ChannelManager instance: the `subscribers` registry
(channel id to listener table), the `nextId` counter, and the set of
channels currently subscribed at the broker on the dedicated subscription
connection (`subConn`). -/
structure ChannelManager where
  subscribers : List (Channel × List (Nat × Callback))
  nextId : Nat
  brokerSubs : List Channel
deriving DecidableEq, Repr

/-- A freshly constructed ChannelManager: `this.subscribers = {}`,
`this.nextId = 0`, and no channel subscribed at the broker yet. -/
def mkManager : ChannelManager := ⟨[], 0, []⟩

/-- Lookup of `this.subscribers[channel]`. -/
def getSubs (m : ChannelManager) (c : Channel) : Option (List (Nat × Callback)) :=
  alistGet m.subscribers c

/-- The listener table of a channel, empty when the channel has no entry. -/
def subsList (m : ChannelManager) (c : Channel) : List (Nat × Callback) :=
  (getSubs m c).getD []

/-- Whether the registry contains a key for the channel. -/
def hasKey (m : ChannelManager) (c : Channel) : Bool :=
  (getSubs m c).isSome

/-- ChannelManager.prototype.subscribe: if the channel has no entry yet,
create one and subscribe the channel on the broker connection; then register
the callback under a fresh listener id and return the data captured by the
unsubscribe handle (the channel and the listener id). -/
def ChannelManager.subscribe (m : ChannelManager) (c : Channel) (fn : Callback) :
    ChannelManager × Channel × Nat :=
  let subs := subsList m c
  let broker := if (getSubs m c).isSome then m.brokerSubs else c :: m.brokerSubs
  let id := m.nextId
  (⟨alistSet m.subscribers c (putListener subs id fn), id + 1, broker⟩, (c, id))

/-- ChannelManager.prototype.unsubscribe: when the channel has an entry,
delete the listener id from it; if no listeners remain, delete the channel
entry and unsubscribe the channel on the broker connection. -/
def ChannelManager.unsubscribe (m : ChannelManager) (c : Channel) (listenerId : Nat) :
    ChannelManager :=
  if (getSubs m c).isSome = true then
    let subs := (subsList m c).filter (fun p => p.1 ≠ listenerId)
    if subs.length = 0 then
      ⟨alistDel m.subscribers c, m.nextId, m.brokerSubs.filter (fun x => x ≠ c)⟩
    else
      ⟨alistSet m.subscribers c subs, m.nextId, m.brokerSubs⟩
  else m

/-- Result of the inbound message handler: the invocations it performed, as
(listener id, message) pairs in order, and the error that escaped the
handler, if any. -/
structure DispatchResult where
  trace : List (Nat × Msg)
  error : Option String
deriving DecidableEq, Repr

/-- Run `_.forEach(subscribers, fn => fn(message))` over a listener table:
each listener is invoked in turn; a thrown error aborts the iteration and
propagates (the source wraps no try/catch around the invocation). -/
def runListeners : List (Nat × Callback) → Msg → DispatchResult
  | [], _ => ⟨[], none⟩
  | (id, fn) :: rest, msg =>
    match fn.throws with
    | some e => ⟨[(id, msg)], some e⟩
    | none =>
      let r := runListeners rest msg
      ⟨(id, msg) :: r.trace, r.error⟩

/-- The handler installed with `subConn.on(message, ...)`: on delivery of a
broker message, look up the listeners of the channel; when the channel has
no entry do nothing, otherwise invoke every listener with the message.  The
handler does not modify the registry. -/
def ChannelManager.dispatch (m : ChannelManager) (c : Channel) (msg : Msg) :
    DispatchResult :=
  match getSubs m c with
  | none => ⟨[], none⟩
  | some subs => runListeners subs msg

/-! ### Durable room-membership store (redis sets via pubConn) -/

/-- The durable store: redis keys mapped to set contents.  Reachable stores
keep each set duplicate-free and nonempty (redis drops a set key when the
set becomes empty). -/
abbrev Store := List (String × List String)

/-- SMEMBERS of a key: the stored list, empty when the key is absent. -/
def storeGet (s : Store) (k : String) : List String :=
  (alistGet s k).getD []

/-- DEL of a key. -/
def storeDel (s : Store) (k : String) : Store := alistDel s k

/-- SADD of one member: no-op when the member is already present. -/
def sadd (s : Store) (k v : String) : Store :=
  let cur := storeGet s k
  if v ∈ cur then s else alistSet s k (cur ++ [v])

/-- SREM of one member: remove it, and drop the key when the set becomes
empty, as redis does. -/
def srem (s : Store) (k v : String) : Store :=
  let cur := (storeGet s k).filter (fun x => x ≠ v)
  if cur = [] then storeDel s k else alistSet s k cur

/-- subscribersKey: `util.format("room:%s:channels", room)`. -/
def subscribersKey (room : Room) : String := "room:" ++ room ++ ":channels"

/-- ChannelManager.prototype.enter: SADD the channel into the room key. -/
def ChannelManager.enter (room : Room) (channel : Channel) (s : Store) : Store :=
  sadd s (subscribersKey room) channel

/-- ChannelManager.prototype.leave: SREM the channel from the room key. -/
def ChannelManager.leave (room : Room) (channel : Channel) (s : Store) : Store :=
  srem s (subscribersKey room) channel

/-- ChannelManager.prototype.members: SMEMBERS of the room key. -/
def ChannelManager.members (room : Room) (s : Store) : List Channel :=
  storeGet s (subscribersKey room)

/-- ChannelManager.prototype.close: DEL the room key. -/
def ChannelManager.close (room : Room) (s : Store) : Store :=
  storeDel s (subscribersKey room)

/-- ChannelManager.prototype.publish: forwards the message to the broker on
the publishing connection and reports the broker acknowledgement; it never
consults the local registry.  The acknowledgement is modelled by the oracle
`pub`. -/
def ChannelManager.publish (pub : Channel → Msg → Bool) (c : Channel) (msg : Msg) : Bool :=
  pub c msg

/-- ChannelManager.prototype.broadcast: resolve the members of the room,
then publish the message once to each member channel, and succeed exactly
when every publish succeeds (q.all over the mapped publishes).  Returns the
issued publishes and the aggregate outcome. -/
def ChannelManager.broadcast (pub : Channel → Msg → Bool) (room : Room)
    (msg : Msg) (s : Store) : List (Channel × Msg) × Bool :=
  let subs := ChannelManager.members room s
  (subs.map (fun c => (c, msg)), subs.all (fun c => ChannelManager.publish pub c msg))

/-! ### Operation sequences over the registry -/

/-- One registry operation: a subscribe call, or the invocation of an
unsubscribe handle carrying its channel and listener id. -/
inductive Op where
  | sub (c : Channel) (fn : Callback)
  | unsub (c : Channel) (id : Nat)
deriving DecidableEq, Repr

/-- Apply one operation to the manager state. -/
def applyOp (m : ChannelManager) : Op → ChannelManager
  | .sub c fn => (m.subscribe c fn).1
  | .unsub c id => m.unsubscribe c id

/-- Run a sequence of operations from a state. -/
def run (m : ChannelManager) (ops : List Op) : ChannelManager := ops.foldl applyOp m

/-! ### Invariants -/

/-- Well-formedness of one listener table under a counter bound: nonempty,
in strictly ascending id order, and all ids below the counter. -/
def WfEntry (n : Nat) (l : List (Nat × Callback)) : Prop :=
  l ≠ [] ∧ l.Pairwise (fun p q => p.1 < q.1) ∧ ∀ p ∈ l, p.1 < n

/-- Well-formedness of a manager state: every registry entry is well formed,
and a channel key is present exactly when the channel is subscribed on the
broker connection. -/
def Wf (m : ChannelManager) : Prop :=
  ∀ c : Channel,
    (∀ l, getSubs m c = some l → WfEntry m.nextId l) ∧
    ((getSubs m c).isSome = true ↔ c ∈ m.brokerSubs)

/-- A listener id with its callback is currently registered on a channel. -/
def Registered (m : ChannelManager) (c : Channel) (id : Nat) (fn : Callback) : Prop :=
  (id, fn) ∈ subsList m c

/-- Well-formedness of the durable store: every stored set is duplicate-free
and nonempty (redis sets hold distinct members and empty set keys do not
exist). -/
def StoreWf (s : Store) : Prop := ∀ e ∈ s, e.2.Nodup ∧ e.2 ≠ []

/-! ### Association list lemmas -/

theorem alistGet_set {α : Type} (l : List (String × α)) (k₀ : String) (v₀ : α) (k : String) :
    alistGet (alistSet l k₀ v₀) k = if k = k₀ then some v₀ else alistGet l k := by
  induction l with
  | nil =>
    by_cases h : k = k₀ <;> simp [alistSet, alistGet, h]
  | cons e rest ih =>
    obtain ⟨k₁, v₁⟩ := e
    by_cases h₀ : k₀ = k₁
    · subst h₀
      by_cases h : k = k₀ <;> simp [alistSet, alistGet, h]
    · by_cases h : k = k₁
      · subst h
        have hne : ¬ k = k₀ := fun hc => h₀ (hc ▸ rfl)
        simp [alistSet, alistGet, h₀, hne]
      · simp [alistSet, alistGet, h₀, h, ih]

theorem alistGet_del {α : Type} (l : List (String × α)) (k₀ k : String) :
    alistGet (alistDel l k₀) k = if k = k₀ then none else alistGet l k := by
  induction l with
  | nil =>
    by_cases h : k = k₀ <;> simp [alistDel, alistGet, h]
  | cons e rest ih =>
    obtain ⟨k₁, v₁⟩ := e
    by_cases h₀ : k₀ = k₁
    · subst h₀
      by_cases h : k = k₀
      · subst h
        simp [alistDel, alistGet, ih]
      · simp [alistDel, alistGet, h, ih]
    · by_cases h : k = k₁
      · subst h
        have hne : ¬ k = k₀ := fun hc => h₀ (hc ▸ rfl)
        simp [alistDel, alistGet, h₀, hne]
      · simp [alistDel, alistGet, h₀, h, ih]

theorem alistSet_get_self {α : Type} (l : List (String × α)) (k : String) (v : α)
    (h : alistGet l k = some v) : alistSet l k v = l := by
  induction l with
  | nil => simp [alistGet] at h
  | cons e rest ih =>
    obtain ⟨k₁, v₁⟩ := e
    by_cases hk : k = k₁
    · subst hk
      simp [alistGet] at h
      simp [alistSet, h]
    · simp [alistGet, hk] at h
      simp [alistSet, hk, ih h]

theorem alistGet_eq_none {α : Type} (l : List (String × α)) (k : String) :
    alistGet l k = none ↔ ∀ e ∈ l, e.1 ≠ k := by
  induction l with
  | nil => simp [alistGet]
  | cons e rest ih =>
    obtain ⟨k₁, v₁⟩ := e
    by_cases hk : k = k₁
    · subst hk
      simp [alistGet]
    · simp [alistGet, hk, ih]
      intro _
      exact fun hc => hk (hc ▸ rfl)

theorem alistGet_mem {α : Type} (l : List (String × α)) (k : String) (v : α)
    (h : alistGet l k = some v) : (k, v) ∈ l := by
  induction l with
  | nil => simp [alistGet] at h
  | cons e rest ih =>
    obtain ⟨k₁, v₁⟩ := e
    by_cases hk : k = k₁
    · subst hk
      simp [alistGet] at h
      simp [h]
    · simp [alistGet, hk] at h
      exact List.mem_cons_of_mem _ (ih h)

theorem alistDel_id {α : Type} (l : List (String × α)) (k : String)
    (h : ∀ e ∈ l, e.1 ≠ k) : alistDel l k = l := by
  induction l with
  | nil => rfl
  | cons e rest ih =>
    obtain ⟨k₁, v₁⟩ := e
    have h₁ : k₁ ≠ k := h (k₁, v₁) (List.mem_cons_self _ _)
    have hk : ¬ k = k₁ := fun hc => h₁ (hc ▸ rfl)
    simp [alistDel, hk]
    exact ih (fun e he => h e (List.mem_cons_of_mem _ he))

theorem mem_alistSet {α : Type} (l : List (String × α)) (k : String) (v : α) (e : String × α)
    (h : e ∈ alistSet l k v) : e = (k, v) ∨ e ∈ l := by
  induction l with
  | nil =>
    simp [alistSet] at h
    exact Or.inl h
  | cons e₁ rest ih =>
    obtain ⟨k₁, v₁⟩ := e₁
    by_cases hk : k = k₁
    · simp [alistSet, hk] at h
      rcases h with h | h
      · exact Or.inl (by simp [h, hk])
      · exact Or.inr (List.mem_cons_of_mem _ h)
    · simp [alistSet, hk] at h
      rcases h with h | h
      · exact Or.inr (by simp [h])
      · rcases ih h with h₂ | h₂
        · exact Or.inl h₂
        · exact Or.inr (List.mem_cons_of_mem _ h₂)

theorem mem_alistDel {α : Type} (l : List (String × α)) (k : String) (e : String × α)
    (h : e ∈ alistDel l k) : e ∈ l := by
  induction l with
  | nil => simp [alistDel] at h
  | cons e₁ rest ih =>
    obtain ⟨k₁, v₁⟩ := e₁
    by_cases hk : k = k₁
    · subst hk
      simp [alistDel] at h
      exact List.mem_cons_of_mem _ (ih h)
    · simp [alistDel, hk] at h
      rcases h with h | h
      · simp [h]
      · exact List.mem_cons_of_mem _ (ih h)

theorem alistDel_keys_ne {α : Type} (l : List (String × α)) (k : String) :
    ∀ e ∈ alistDel l k, e.1 ≠ k := by
  induction l with
  | nil => simp [alistDel]
  | cons e₁ rest ih =>
    obtain ⟨k₁, v₁⟩ := e₁
    by_cases hk : k = k₁
    · subst hk
      simp only [alistDel, if_pos rfl]
      exact ih
    · simp only [alistDel, if_neg hk]
      intro e he
      rcases List.mem_cons.mp he with h | h
      · subst h
        exact fun hc => hk hc.symm
      · exact ih e h

/-! ### Listener table lemmas -/

theorem putListener_self_mem (l : List (Nat × Callback)) (id : Nat) (fn : Callback) :
    (id, fn) ∈ putListener l id fn := by
  induction l with
  | nil => simp [putListener]
  | cons e rest ih =>
    obtain ⟨i, g⟩ := e
    by_cases h₁ : id < i
    · simp [putListener, h₁]
    · by_cases h₂ : id = i
      · simp [putListener, h₁, h₂]
      · simp only [putListener, if_neg h₁, if_neg h₂]
        exact List.mem_cons_of_mem _ ih

theorem putListener_mem_of_mem (l : List (Nat × Callback)) (id : Nat) (fn : Callback)
    (p : Nat × Callback) (hp : p ∈ l) (hne : p.1 ≠ id) : p ∈ putListener l id fn := by
  induction l with
  | nil => simp at hp
  | cons e rest ih =>
    obtain ⟨i, g⟩ := e
    by_cases h₁ : id < i
    · simp only [putListener, if_pos h₁]
      exact List.mem_cons_of_mem _ hp
    · by_cases h₂ : id = i
      · simp only [putListener, if_neg h₁, if_pos h₂]
        rcases List.mem_cons.mp hp with h | h
        · subst h
          exact absurd (h₂ ▸ rfl) hne
        · exact List.mem_cons_of_mem _ h
      · simp only [putListener, if_neg h₁, if_neg h₂]
        rcases List.mem_cons.mp hp with h | h
        · subst h
          exact List.mem_cons_self _ _
        · exact List.mem_cons_of_mem _ (ih h)

theorem mem_of_putListener_mem (l : List (Nat × Callback)) (id : Nat) (fn : Callback)
    (p : Nat × Callback) (hp : p ∈ putListener l id fn) : p = (id, fn) ∨ p ∈ l := by
  induction l with
  | nil =>
    simp [putListener] at hp
    exact Or.inl hp
  | cons e rest ih =>
    obtain ⟨i, g⟩ := e
    by_cases h₁ : id < i
    · simp only [putListener, if_pos h₁] at hp
      rcases List.mem_cons.mp hp with h | h
      · exact Or.inl h
      · exact Or.inr h
    · by_cases h₂ : id = i
      · simp only [putListener, if_neg h₁, if_pos h₂] at hp
        rcases List.mem_cons.mp hp with h | h
        · exact Or.inl h
        · exact Or.inr (List.mem_cons_of_mem _ h)
      · simp only [putListener, if_neg h₁, if_neg h₂] at hp
        rcases List.mem_cons.mp hp with h | h
        · exact Or.inr (by simp [h])
        · rcases ih h with h₃ | h₃
          · exact Or.inl h₃
          · exact Or.inr (List.mem_cons_of_mem _ h₃)

theorem putListener_ne_nil (l : List (Nat × Callback)) (id : Nat) (fn : Callback) :
    putListener l id fn ≠ [] := by
  cases l with
  | nil => simp [putListener]
  | cons e rest =>
    obtain ⟨i, g⟩ := e
    by_cases h₁ : id < i
    · simp [putListener, h₁]
    · by_cases h₂ : id = i
      · simp [putListener, h₁, h₂]
      · simp [putListener, h₁, h₂]

theorem putListener_pairwise (l : List (Nat × Callback)) (id : Nat) (fn : Callback)
    (hl : l.Pairwise (fun p q => p.1 < q.1)) :
    (putListener l id fn).Pairwise (fun p q => p.1 < q.1) := by
  induction l with
  | nil => simp [putListener]
  | cons e rest ih =>
    obtain ⟨i, g⟩ := e
    rcases List.pairwise_cons.mp hl with ⟨hall, hrest⟩
    by_cases h₁ : id < i
    · simp only [putListener, if_pos h₁]
      refine List.pairwise_cons.mpr ⟨?_, hl⟩
      intro q hq
      rcases List.mem_cons.mp hq with h | h
      · subst h
        exact h₁
      · exact lt_trans h₁ (hall q h)
    · by_cases h₂ : id = i
      · simp only [putListener, if_neg h₁, if_pos h₂]
        refine List.pairwise_cons.mpr ⟨?_, hrest⟩
        intro q hq
        exact h₂ ▸ hall q hq
      · simp only [putListener, if_neg h₁, if_neg h₂]
        refine List.pairwise_cons.mpr ⟨?_, ih hrest⟩
        intro q hq
        rcases mem_of_putListener_mem rest id fn q hq with h | h
        · subst h
          exact lt_of_le_of_ne (Nat.le_of_not_lt h₁) (fun hc => h₂ hc.symm)
        · exact hall q h

/-! ### Dispatch lemmas -/

theorem runListeners_no_throw (l : List (Nat × Callback)) (msg : Msg)
    (h : ∀ p ∈ l, p.2.throws = none) :
    runListeners l msg = ⟨l.map (fun p => (p.1, msg)), none⟩ := by
  induction l with
  | nil => rfl
  | cons p rest ih =>
    obtain ⟨id, fn⟩ := p
    have hfn : fn.throws = none := h (id, fn) (List.mem_cons_self _ _)
    simp [runListeners, hfn, ih (fun q hq => h q (List.mem_cons_of_mem _ hq))]

theorem runListeners_throws (pre post : List (Nat × Callback)) (i : Nat) (fn : Callback)
    (e : String) (msg : Msg) (hpre : ∀ p ∈ pre, p.2.throws = none)
    (hfn : fn.throws = some e) :
    runListeners (pre ++ (i, fn) :: post) msg =
      ⟨pre.map (fun p => (p.1, msg)) ++ [(i, msg)], some e⟩ := by
  induction pre with
  | nil => simp [runListeners, hfn]
  | cons p rest ih =>
    obtain ⟨j, g⟩ := p
    have hg : g.throws = none := hpre (j, g) (List.mem_cons_self _ _)
    simp [runListeners, hg, ih (fun q hq => hpre q (List.mem_cons_of_mem _ hq))]

/-- Every invocation recorded by the dispatch loop belongs to a listener of
the table and carries the delivered message. -/
theorem runListeners_trace_sub (l : List (Nat × Callback)) (msg : Msg) :
    ∀ q ∈ (runListeners l msg).trace, q.1 ∈ l.map Prod.fst ∧ q.2 = msg := by
  induction l with
  | nil =>
    intro q hq
    simp [runListeners] at hq
  | cons p rest ih =>
    obtain ⟨id, fn⟩ := p
    intro q hq
    cases hthrows : fn.throws with
    | some e =>
      simp only [runListeners, hthrows] at hq
      rcases List.mem_singleton.mp hq with hq
      subst hq
      simp
    | none =>
      simp only [runListeners, hthrows] at hq
      rcases List.mem_cons.mp hq with h | h
      · subst h
        simp
      · rcases ih q h with ⟨h₁, h₂⟩
        exact ⟨List.mem_cons_of_mem _ h₁, h₂⟩

/-- In a listener table with strictly ascending ids, provided every
listener iterated before the one with the given id returns normally, the
trace of a dispatch contains exactly one invocation of that id, carrying
the delivered message: a later listener throwing cannot erase it, an
earlier one returning normally cannot duplicate it. -/
theorem runListeners_filter_key (l : List (Nat × Callback)) (id : Nat) (fn : Callback)
    (msg : Msg) (hl : l.Pairwise (fun p q => p.1 < q.1)) (hmem : (id, fn) ∈ l)
    (hpre : ∀ p ∈ l, p.1 < id → p.2.throws = none) :
    (runListeners l msg).trace.filter (fun q => q.1 == id) = [(id, msg)] := by
  induction l with
  | nil => simp at hmem
  | cons p rest ih =>
    obtain ⟨i, g⟩ := p
    rcases List.pairwise_cons.mp hl with ⟨hall, hrest⟩
    rcases List.mem_cons.mp hmem with h | h
    · injection h with h₁ h₂
      subst h₁
      subst h₂
      have hrest_nil : ∀ tr : DispatchResult,
          (∀ q ∈ tr.trace, q.1 ∈ rest.map Prod.fst ∧ q.2 = msg) →
          tr.trace.filter (fun q => q.1 == id) = [] := by
        intro tr htr
        apply List.filter_eq_nil_iff.mpr
        intro q hq
        rcases htr q hq with ⟨h₁, _⟩
        rcases List.mem_map.mp h₁ with ⟨r, hr, hq₁⟩
        have : id < q.1 := hq₁ ▸ hall r hr
        simp
        exact fun hc => absurd (hc ▸ this) (lt_irrefl _)
      cases hthrows : fn.throws with
      | some e =>
        simp only [runListeners, hthrows]
        simp
      | none =>
        simp only [runListeners, hthrows]
        simp only [List.filter_cons]
        rw [if_pos (by simp)]
        rw [hrest_nil (runListeners rest msg) (runListeners_trace_sub rest msg)]
    · have hlt : i < id := hall (id, fn) h
      have hg : g.throws = none :=
        hpre (i, g) (List.mem_cons_self _ _) hlt
      simp only [runListeners, hg]
      simp only [List.filter_cons]
      rw [if_neg (by simp [Nat.ne_of_lt hlt])]
      exact ih hrest h (fun p hp hplt => hpre p (List.mem_cons_of_mem _ hp) hplt)

/-! ### Characterisation of subscribe and unsubscribe -/

theorem getSubs_subscribe (m : ChannelManager) (c : Channel) (fn : Callback) (c₀ : Channel) :
    getSubs (m.subscribe c fn).1 c₀ =
      if c₀ = c then some (putListener (subsList m c) m.nextId fn) else getSubs m c₀ := by
  simp [ChannelManager.subscribe, getSubs, alistGet_set]

theorem nextId_subscribe (m : ChannelManager) (c : Channel) (fn : Callback) :
    (m.subscribe c fn).1.nextId = m.nextId + 1 := rfl

theorem handle_subscribe (m : ChannelManager) (c : Channel) (fn : Callback) :
    (m.subscribe c fn).2 = (c, m.nextId) := rfl

theorem brokerSubs_subscribe (m : ChannelManager) (c : Channel) (fn : Callback) :
    (m.subscribe c fn).1.brokerSubs =
      if (getSubs m c).isSome = true then m.brokerSubs else c :: m.brokerSubs := rfl

theorem unsubscribe_absent (m : ChannelManager) (c : Channel) (id : Nat)
    (h : getSubs m c = none) : m.unsubscribe c id = m := by
  unfold ChannelManager.unsubscribe
  rw [if_neg (by simp [h])]

theorem unsubscribe_last (m : ChannelManager) (c : Channel) (id : Nat)
    (subs : List (Nat × Callback)) (h : getSubs m c = some subs)
    (he : subs.filter (fun p => p.1 ≠ id) = []) :
    m.unsubscribe c id =
      ⟨alistDel m.subscribers c, m.nextId, m.brokerSubs.filter (fun x => x ≠ c)⟩ := by
  have hs : subsList m c = subs := by simp [subsList, h]
  unfold ChannelManager.unsubscribe
  rw [if_pos (by simp [h])]
  simp only [hs, he, List.length_nil]
  simp

theorem unsubscribe_keep (m : ChannelManager) (c : Channel) (id : Nat)
    (subs : List (Nat × Callback)) (h : getSubs m c = some subs)
    (he : subs.filter (fun p => p.1 ≠ id) ≠ []) :
    m.unsubscribe c id =
      ⟨alistSet m.subscribers c (subs.filter (fun p => p.1 ≠ id)),
        m.nextId, m.brokerSubs⟩ := by
  have hs : subsList m c = subs := by simp [subsList, h]
  have he₂ : ¬ ((subs.filter (fun p => p.1 ≠ id)).length = 0) := by
    simpa [List.length_eq_zero] using he
  unfold ChannelManager.unsubscribe
  rw [if_pos (by simp [h])]
  simp only [hs]
  rw [if_neg he₂]

/-! ### Preservation of the registry invariant -/

theorem wfEntry_mono (n : Nat) (l : List (Nat × Callback)) (h : WfEntry n l) :
    WfEntry (n + 1) l :=
  ⟨h.1, h.2.1, fun p hp => Nat.lt_succ_of_lt (h.2.2 p hp)⟩

theorem subsList_pairwise (m : ChannelManager) (c : Channel) (h : Wf m) :
    (subsList m c).Pairwise (fun p q => p.1 < q.1) := by
  cases hs : getSubs m c with
  | none => simp [subsList, hs]
  | some l =>
    have := ((h c).1 l hs).2.1
    simpa [subsList, hs] using this

theorem subsList_bound (m : ChannelManager) (c : Channel) (h : Wf m) :
    ∀ p ∈ subsList m c, p.1 < m.nextId := by
  cases hs : getSubs m c with
  | none => simp [subsList, hs]
  | some l =>
    have := ((h c).1 l hs).2.2
    simpa [subsList, hs] using this

theorem wf_mkManager : Wf mkManager := by
  intro c
  constructor
  · intro l hl
    simp [getSubs, mkManager, alistGet] at hl
  · simp [getSubs, mkManager, alistGet]

theorem wf_subscribe (m : ChannelManager) (c : Channel) (fn : Callback) (h : Wf m) :
    Wf (m.subscribe c fn).1 := by
  intro c₀
  constructor
  · intro l hl
    rw [getSubs_subscribe] at hl
    rw [nextId_subscribe]
    by_cases hc : c₀ = c
    · rw [if_pos hc] at hl
      have hl₂ : l = putListener (subsList m c) m.nextId fn := by
        injection hl with hl
        exact hl.symm
      subst hl₂
      refine ⟨putListener_ne_nil _ _ _, putListener_pairwise _ _ _ (subsList_pairwise m c h), ?_⟩
      intro p hp
      rcases mem_of_putListener_mem _ _ _ p hp with h₂ | h₂
      · subst h₂
        exact Nat.lt_succ_self _
      · exact Nat.lt_succ_of_lt (subsList_bound m c h p h₂)
    · rw [if_neg hc] at hl
      exact wfEntry_mono _ _ ((h c₀).1 l hl)
  · rw [getSubs_subscribe, brokerSubs_subscribe]
    by_cases hc : c₀ = c
    · subst hc
      rw [if_pos rfl]
      by_cases hsome : (getSubs m c₀).isSome = true
      · rw [if_pos hsome]
        simp [((h c₀).2).mp hsome]
      · rw [if_neg hsome]
        simp
    · rw [if_neg hc]
      by_cases hsome : (getSubs m c).isSome = true
      · rw [if_pos hsome]
        exact (h c₀).2
      · rw [if_neg hsome]
        rw [List.mem_cons]
        constructor
        · intro hx
          exact Or.inr ((h c₀).2.mp hx)
        · intro hx
          rcases hx with hx | hx
          · exact absurd hx hc
          · exact (h c₀).2.mpr hx

theorem wf_unsubscribe (m : ChannelManager) (c : Channel) (id : Nat) (h : Wf m) :
    Wf (m.unsubscribe c id) := by
  cases hs : getSubs m c with
  | none =>
    rw [unsubscribe_absent m c id hs]
    exact h
  | some subs =>
    by_cases hemp : subs.filter (fun p => p.1 ≠ id) = []
    · rw [unsubscribe_last m c id subs hs hemp]
      intro c₀
      constructor
      · intro l hl
        simp only [getSubs] at hl
        rw [alistGet_del] at hl
        by_cases hc : c₀ = c
        · rw [if_pos hc] at hl
          exact absurd hl (by simp)
        · rw [if_neg hc] at hl
          exact (h c₀).1 l hl
      · simp only [getSubs]
        rw [alistGet_del]
        by_cases hc : c₀ = c
        · rw [if_pos hc]
          subst hc
          simp [List.mem_filter]
        · rw [if_neg hc]
          rw [List.mem_filter]
          constructor
          · intro hx
            exact ⟨(h c₀).2.mp hx, by simp [hc]⟩
          · intro hx
            exact (h c₀).2.mpr hx.1
    · rw [unsubscribe_keep m c id subs hs hemp]
      have hwfe : WfEntry m.nextId subs := (h c).1 subs hs
      intro c₀
      constructor
      · intro l hl
        simp only [getSubs] at hl
        rw [alistGet_set] at hl
        by_cases hc : c₀ = c
        · rw [if_pos hc] at hl
          have hl₂ : l = subs.filter (fun p => p.1 ≠ id) := by
            injection hl with hl
            exact hl.symm
          subst hl₂
          refine ⟨hemp, hwfe.2.1.sublist (List.filter_sublist _), ?_⟩
          intro p hp
          exact hwfe.2.2 p (List.mem_of_mem_filter hp)
        · rw [if_neg hc] at hl
          exact (h c₀).1 l hl
      · simp only [getSubs]
        rw [alistGet_set]
        by_cases hc : c₀ = c
        · rw [if_pos hc]
          subst hc
          simp only [Option.isSome_some, true_iff]
          exact (h c₀).2.mp (by simp [hs])
        · rw [if_neg hc]
          exact (h c₀).2

theorem wf_applyOp (m : ChannelManager) (o : Op) (h : Wf m) : Wf (applyOp m o) := by
  cases o with
  | sub c fn => exact wf_subscribe m c fn h
  | unsub c id => exact wf_unsubscribe m c id h

theorem wf_run (ops : List Op) (m : ChannelManager) (h : Wf m) : Wf (run m ops) := by
  induction ops generalizing m with
  | nil => exact h
  | cons o rest ih => exact ih (applyOp m o) (wf_applyOp m o h)

theorem wf_run_mk (ops : List Op) : Wf (run mkManager ops) :=
  wf_run ops mkManager wf_mkManager

/-! ### Persistence of a registered listener -/

theorem subsList_subscribe (m : ChannelManager) (c : Channel) (fn : Callback) (c₀ : Channel) :
    subsList (m.subscribe c fn).1 c₀ =
      if c₀ = c then putListener (subsList m c) m.nextId fn else subsList m c₀ := by
  by_cases hc : c₀ = c
  · simp [subsList, getSubs_subscribe, hc]
  · simp [subsList, getSubs_subscribe, hc]

theorem registered_subscribe (m : ChannelManager) (c : Channel) (fn : Callback) :
    Registered (m.subscribe c fn).1 c m.nextId fn := by
  unfold Registered
  rw [subsList_subscribe, if_pos rfl]
  exact putListener_self_mem _ _ _

theorem registered_getSubs (m : ChannelManager) (c : Channel) (id : Nat) (fn : Callback)
    (hr : Registered m c id fn) : getSubs m c = some (subsList m c) := by
  cases hs : getSubs m c with
  | none =>
    unfold Registered at hr
    simp [subsList, hs] at hr
  | some l => simp [subsList, hs]

theorem registered_applyOp (m : ChannelManager) (o : Op) (c : Channel) (id : Nat)
    (fn : Callback) (hwf : Wf m) (hr : Registered m c id fn) (hne : o ≠ Op.unsub c id) :
    Registered (applyOp m o) c id fn := by
  cases o with
  | sub c₁ fn₁ =>
    unfold Registered
    show (id, fn) ∈ subsList (m.subscribe c₁ fn₁).1 c
    rw [subsList_subscribe]
    by_cases hc : c = c₁
    · rw [if_pos hc]
      subst hc
      refine putListener_mem_of_mem _ _ _ _ hr ?_
      exact Nat.ne_of_lt (subsList_bound m c hwf (id, fn) hr)
    · rw [if_neg hc]
      exact hr
  | unsub c₁ id₁ =>
    show Registered (m.unsubscribe c₁ id₁) c id fn
    by_cases hc : c₁ = c
    · subst hc
      have hid : id₁ ≠ id := by
        intro hcongr
        subst hcongr
        exact hne rfl
      have hs : getSubs m c₁ = some (subsList m c₁) := registered_getSubs m c₁ id fn hr
      have hkeep : (subsList m c₁).filter (fun p => p.1 ≠ id₁) ≠ [] := by
        intro hc₂
        have : (id, fn) ∈ (subsList m c₁).filter (fun p => p.1 ≠ id₁) := by
          rw [List.mem_filter]
          exact ⟨hr, by simp; exact fun hcc => hid hcc.symm⟩
        rw [hc₂] at this
        simp at this
      rw [unsubscribe_keep m c₁ id₁ (subsList m c₁) hs hkeep]
      unfold Registered
      simp only [subsList, getSubs]
      rw [alistGet_set, if_pos rfl]
      simp only [Option.getD_some]
      rw [List.mem_filter]
      exact ⟨hr, by simp; exact fun hcc => hid hcc.symm⟩
    · have frame : getSubs (m.unsubscribe c₁ id₁) c = getSubs m c := by
        cases hs : getSubs m c₁ with
        | none => rw [unsubscribe_absent m c₁ id₁ hs]
        | some subs =>
          by_cases hemp : subs.filter (fun p => p.1 ≠ id₁) = []
          · rw [unsubscribe_last m c₁ id₁ subs hs hemp]
            simp only [getSubs]
            rw [alistGet_del, if_neg (fun hcc => hc hcc.symm)]
          · rw [unsubscribe_keep m c₁ id₁ subs hs hemp]
            simp only [getSubs]
            rw [alistGet_set, if_neg (fun hcc => hc hcc.symm)]
      unfold Registered at hr ⊢
      simp only [subsList] at hr ⊢
      rw [frame]
      exact hr

theorem registered_run (ops : List Op) (m : ChannelManager) (c : Channel) (id : Nat)
    (fn : Callback) (hwf : Wf m) (hr : Registered m c id fn) (hne : Op.unsub c id ∉ ops) :
    Registered (run m ops) c id fn := by
  induction ops generalizing m with
  | nil => exact hr
  | cons o rest ih =>
    have hne₁ : o ≠ Op.unsub c id := by
      intro hcongr
      exact hne (hcongr ▸ List.mem_cons_self _ _)
    have hne₂ : Op.unsub c id ∉ rest := fun hmem => hne (List.mem_cons_of_mem _ hmem)
    exact ih (applyOp m o) (wf_applyOp m o hwf)
      (registered_applyOp m o c id fn hwf hr hne₁) hne₂

/-! ### Idempotence helpers for unsubscribe -/

theorem unsubscribe_no_listener (m : ChannelManager) (c : Channel) (id : Nat)
    (hwf : Wf m) (hid : ∀ p ∈ subsList m c, p.1 ≠ id) : m.unsubscribe c id = m := by
  cases hs : getSubs m c with
  | none => exact unsubscribe_absent m c id hs
  | some subs =>
    have hsubs : subsList m c = subs := by simp [subsList, hs]
    have hfe : subs.filter (fun p => p.1 ≠ id) = subs := by
      apply List.filter_eq_self.mpr
      intro p hp
      simp [hid p (hsubs ▸ hp)]
    have hne : subs.filter (fun p => p.1 ≠ id) ≠ [] := by
      rw [hfe]
      exact ((hwf c).1 subs hs).1
    rw [unsubscribe_keep m c id subs hs hne, hfe]
    have : alistSet m.subscribers c subs = m.subscribers :=
      alistSet_get_self m.subscribers c subs hs
    rw [this]

theorem unsubscribe_removes (m : ChannelManager) (c : Channel) (id : Nat) :
    ∀ p ∈ subsList (m.unsubscribe c id) c, p.1 ≠ id := by
  cases hs : getSubs m c with
  | none =>
    rw [unsubscribe_absent m c id hs]
    simp [subsList, hs]
  | some subs =>
    by_cases hemp : subs.filter (fun p => p.1 ≠ id) = []
    · rw [unsubscribe_last m c id subs hs hemp]
      simp only [subsList, getSubs]
      rw [alistGet_del, if_pos rfl]
      simp
    · rw [unsubscribe_keep m c id subs hs hemp]
      simp only [subsList, getSubs]
      rw [alistGet_set, if_pos rfl]
      simp only [Option.getD_some]
      intro p hp
      have := (List.mem_filter.mp hp).2
      simpa using this

/-! ### Durable store lemmas -/

theorem storeGet_nodup (s : Store) (k : String) (h : StoreWf s) : (storeGet s k).Nodup := by
  cases hs : alistGet s k with
  | none => simp [storeGet, hs]
  | some l =>
    have := (h (k, l) (alistGet_mem s k l hs)).1
    simpa [storeGet, hs] using this

theorem storeGet_nil_no_key (s : Store) (k : String) (h : StoreWf s)
    (hnil : storeGet s k = []) : ∀ e ∈ s, e.1 ≠ k := by
  cases hs : alistGet s k with
  | none => exact (alistGet_eq_none s k).mp hs
  | some l =>
    have hl : l = [] := by simpa [storeGet, hs] using hnil
    have := (h (k, l) (alistGet_mem s k l hs)).2
    exact absurd hl this

theorem storeGet_sadd_eq (s : Store) (k v : String) :
    storeGet (sadd s k v) k =
      if v ∈ storeGet s k then storeGet s k else storeGet s k ++ [v] := by
  by_cases hv : v ∈ storeGet s k
  · simp [sadd, hv]
  · simp only [sadd, if_neg hv]
    simp [storeGet, alistGet_set]

theorem storeGet_sadd_ne (s : Store) (k v k₀ : String) (h : k₀ ≠ k) :
    storeGet (sadd s k v) k₀ = storeGet s k₀ := by
  by_cases hv : v ∈ storeGet s k
  · simp [sadd, hv]
  · simp only [sadd, if_neg hv]
    simp [storeGet, alistGet_set, h]

theorem storeGet_srem_eq (s : Store) (k v : String) :
    storeGet (srem s k v) k = (storeGet s k).filter (fun x => x ≠ v) := by
  by_cases hnil : (storeGet s k).filter (fun x => x ≠ v) = []
  · simp only [srem, hnil, if_pos rfl]
    simp [storeGet, storeDel, alistGet_del, hnil]
  · simp only [srem, if_neg hnil]
    simp [storeGet, alistGet_set]

theorem storeGet_srem_ne (s : Store) (k v k₀ : String) (h : k₀ ≠ k) :
    storeGet (srem s k v) k₀ = storeGet s k₀ := by
  by_cases hnil : (storeGet s k).filter (fun x => x ≠ v) = []
  · simp only [srem, hnil, if_pos rfl]
    simp [storeGet, storeDel, alistGet_del, h]
  · simp only [srem, if_neg hnil]
    simp [storeGet, alistGet_set, h]

theorem storeGet_del_eq (s : Store) (k : String) : storeGet (storeDel s k) k = [] := by
  simp [storeGet, storeDel, alistGet_del]

theorem storeGet_del_ne (s : Store) (k k₀ : String) (h : k₀ ≠ k) :
    storeGet (storeDel s k) k₀ = storeGet s k₀ := by
  simp [storeGet, storeDel, alistGet_del, h]

theorem storeWf_sadd (s : Store) (k v : String) (h : StoreWf s) : StoreWf (sadd s k v) := by
  by_cases hv : v ∈ storeGet s k
  · simpa [sadd, hv] using h
  · simp only [sadd, if_neg hv]
    intro e he
    rcases mem_alistSet s k (storeGet s k ++ [v]) e he with h₁ | h₁
    · subst h₁
      refine ⟨?_, by simp⟩
      simp [List.nodup_append, storeGet_nodup s k h, hv]
    · exact h e h₁

theorem storeWf_srem (s : Store) (k v : String) (h : StoreWf s) : StoreWf (srem s k v) := by
  by_cases hnil : (storeGet s k).filter (fun x => x ≠ v) = []
  · simp only [srem, hnil, if_pos rfl]
    intro e he
    exact h e (mem_alistDel s k e he)
  · simp only [srem, if_neg hnil]
    intro e he
    rcases mem_alistSet s k ((storeGet s k).filter (fun x => x ≠ v)) e he with h₁ | h₁
    · subst h₁
      exact ⟨(storeGet_nodup s k h).filter _, hnil⟩
    · exact h e h₁

theorem storeWf_del (s : Store) (k : String) (h : StoreWf s) : StoreWf (storeDel s k) := by
  intro e he
  exact h e (mem_alistDel s k e he)

theorem storeDel_absent (s : Store) (k : String) (h : ∀ e ∈ s, e.1 ≠ k) :
    storeDel s k = s := alistDel_id s k h

/-! ### Remaining helpers -/

theorem dispatch_absent (m : ChannelManager) (c : Channel) (msg : Msg)
    (h : getSubs m c = none) : m.dispatch c msg = ⟨[], none⟩ := by
  unfold ChannelManager.dispatch
  rw [h]

theorem dispatch_some (m : ChannelManager) (c : Channel) (msg : Msg)
    (l : List (Nat × Callback)) (h : getSubs m c = some l) :
    m.dispatch c msg = runListeners l msg := by
  unfold ChannelManager.dispatch
  rw [h]

theorem count_pair_map (l : List Channel) (msg : Msg) (c₀ : Channel) :
    (l.map (fun c => (c, msg))).count (c₀, msg) = l.count c₀ := by
  induction l with
  | nil => rfl
  | cons c rest ih =>
    by_cases hc : c = c₀
    · subst hc
      simp [List.count_cons, ih]
    · simp [List.count_cons, ih, hc]

theorem alistGet_of_storeGet_ne_nil (s : Store) (k : String) (h : storeGet s k ≠ []) :
    alistGet s k = some (storeGet s k) := by
  cases hs : alistGet s k with
  | none => exact absurd (by simp [storeGet, hs]) h
  | some l => simp [storeGet, hs]

/-! ### Claim theorems -/

/-- C1: after every sequence of subscribe and unsubscribe operations from a
fresh manager, the registry contains a key for a channel exactly when the
channel has at least one registered listener and is subscribed at the
broker; moreover the first subscribe for a channel creates the key and
issues the broker subscribe, and removing the sole remaining listener
deletes the key and issues the broker unsubscribe. -/
theorem C1_registry_invariant (ops : List Op) :
    (∀ c : Channel, hasKey (run mkManager ops) c = true ↔
        (subsList (run mkManager ops) c ≠ [] ∧ c ∈ (run mkManager ops).brokerSubs)) ∧
    (∀ (c : Channel) (fn : Callback), hasKey (run mkManager ops) c = false →
        hasKey ((run mkManager ops).subscribe c fn).1 c = true ∧
        c ∈ ((run mkManager ops).subscribe c fn).1.brokerSubs) ∧
    (∀ (c : Channel) (id : Nat) (fn : Callback),
        getSubs (run mkManager ops) c = some [(id, fn)] →
        hasKey ((run mkManager ops).unsubscribe c id) c = false ∧
        c ∉ ((run mkManager ops).unsubscribe c id).brokerSubs) := by
  have hwf : Wf (run mkManager ops) := wf_run_mk ops
  refine ⟨?_, ?_, ?_⟩
  · intro c
    constructor
    · intro hk
      cases hs : getSubs (run mkManager ops) c with
      | none => simp [hasKey, hs] at hk
      | some l =>
        refine ⟨by simp [subsList, hs, ((hwf c).1 l hs).1], ?_⟩
        exact (hwf c).2.mp (by simp [hs])
    · intro hk
      cases hs : getSubs (run mkManager ops) c with
      | none => exact absurd (by simp [subsList, hs]) hk.1
      | some l => simp [hasKey, hs]
  · intro c fn hk
    have hnone : getSubs (run mkManager ops) c = none := by
      cases hs : getSubs (run mkManager ops) c with
      | none => rfl
      | some l => simp [hasKey, hs] at hk
    constructor
    · simp [hasKey, getSubs_subscribe]
    · rw [brokerSubs_subscribe, if_neg (by simp [hnone])]
      exact List.mem_cons_self _ _
  · intro c id fn hs
    have hemp : ([(id, fn)] : List (Nat × Callback)).filter (fun p => p.1 ≠ id) = [] := by
      simp
    rw [unsubscribe_last (run mkManager ops) c id [(id, fn)] hs hemp]
    constructor
    · simp [hasKey, getSubs, alistGet_del]
    · intro hmem
      have := List.mem_filter.mp hmem
      simp at this

/-- Witness for C1 at a concrete input: after subscribing once to channel
me, removing that sole listener deletes the registry key and the broker
subscription. -/
theorem C1_registry_invariant_witness :
    hasKey ((run mkManager [Op.sub "me" cbOk]).unsubscribe "me" 0) "me" = false ∧
    "me" ∉ ((run mkManager [Op.sub "me" cbOk]).unsubscribe "me" 0).brokerSubs :=
  (C1_registry_invariant [Op.sub "me" cbOk]).2.2 "me" 0 cbOk (by decide)

/-- C4 counterexample: with a throwing listener registered on the channel
before f (here f is cbOk, registered second with listener id 1 and its
handle never invoked), delivery of one broker message does not invoke f at
all, so the claim that f is invoked exactly once fails as stated. -/
theorem C4_counterexample :
    ¬ (((run mkManager [Op.sub "c" (cbThrow "boom"), Op.sub "c" cbOk]).dispatch
          "c" "m").trace.filter (fun q => q.1 == 1) = [(1, "m")]) := by
  decide

/-- C4 amended: after subscribe(c, fn) returning listener id i, and any
further operations that do not invoke that unsubscribe handle, dispatching
one broker message on c invokes that listener exactly once and with the
delivered message, provided every listener on c iterated before it (id
smaller than i) returns normally; a listener throwing after it cannot
retract the invocation. -/
theorem C4_deliver_exactly_once (ops more : List Op) (c : Channel) (fn : Callback)
    (msg : Msg)
    (hnot : Op.unsub c (run mkManager ops).nextId ∉ more)
    (hpre : ∀ p ∈ subsList (run ((run mkManager ops).subscribe c fn).1 more) c,
        p.1 < (run mkManager ops).nextId → p.2.throws = none) :
    ((run ((run mkManager ops).subscribe c fn).1 more).dispatch c msg).trace.filter
        (fun q => q.1 == (run mkManager ops).nextId) =
      [((run mkManager ops).nextId, msg)] := by
  have hwf₀ : Wf (run mkManager ops) := wf_run_mk ops
  have hwf₁ : Wf ((run mkManager ops).subscribe c fn).1 :=
    wf_subscribe _ c fn hwf₀
  have hwf₂ : Wf (run ((run mkManager ops).subscribe c fn).1 more) :=
    wf_run more _ hwf₁
  have hr₁ : Registered ((run mkManager ops).subscribe c fn).1 c
      (run mkManager ops).nextId fn := registered_subscribe _ c fn
  have hr₂ : Registered (run ((run mkManager ops).subscribe c fn).1 more) c
      (run mkManager ops).nextId fn :=
    registered_run more _ c _ fn hwf₁ hr₁ hnot
  have hs := registered_getSubs _ _ _ _ hr₂
  rw [dispatch_some _ c msg _ hs]
  exact runListeners_filter_key _ _ fn msg (subsList_pairwise _ c hwf₂) hr₂ hpre

/-- Witness for the amended C4 at a concrete input: subscribing cbOk to
channel me on a fresh manager (listener id 0, no earlier listeners) and
delivering one message invokes listener 0 exactly once with that
message. -/
theorem C4_deliver_exactly_once_witness :
    ((run ((run mkManager []).subscribe "me" cbOk).1 []).dispatch "me" "test 1").trace.filter
        (fun q => q.1 == (run mkManager []).nextId) =
      [((run mkManager []).nextId, "test 1")] :=
  C4_deliver_exactly_once [] [] "me" cbOk "test 1" (by decide) (by decide)

/-- C5: invoking an unsubscribe handle a second time, or invoking it when
the registry has no entry for the channel, is a no-op that leaves the
manager state (registry and broker subscriptions) unchanged; unsubscribe is
a total function, so no exception is possible. -/
theorem C5_unsubscribe_idempotent (m : ChannelManager) (c : Channel) (id : Nat)
    (hwf : Wf m) :
    (m.unsubscribe c id).unsubscribe c id = m.unsubscribe c id ∧
    (getSubs m c = none → m.unsubscribe c id = m) := by
  constructor
  · exact unsubscribe_no_listener (m.unsubscribe c id) c id
      (wf_unsubscribe m c id hwf) (unsubscribe_removes m c id)
  · exact unsubscribe_absent m c id

/-- Witness for C5 at a concrete input: on the manager obtained by one
subscribe to channel me, double unsubscribe of listener 0 equals single
unsubscribe, and unsubscribing on a channel with no registry entry is the
identity. -/
theorem C5_unsubscribe_idempotent_witness :
    ((run mkManager [Op.sub "me" cbOk]).unsubscribe "me" 0).unsubscribe "me" 0 =
      (run mkManager [Op.sub "me" cbOk]).unsubscribe "me" 0 ∧
    (getSubs (run mkManager [Op.sub "me" cbOk]) "other" = none →
      (run mkManager [Op.sub "me" cbOk]).unsubscribe "other" 0 =
        run mkManager [Op.sub "me" cbOk]) :=
  C5_unsubscribe_idempotent (run mkManager [Op.sub "me" cbOk]) "me" 0 (wf_run_mk _)
    |>.imp id (fun _ => C5_unsubscribe_idempotent (run mkManager [Op.sub "me" cbOk])
      "other" 0 (wf_run_mk _) |>.2)

/-- C6: delivering a broker message on a channel that has no entry in the
registry does nothing: no callback is invoked, no error escapes the
handler, and the handler leaves the manager state untouched (dispatch reads
the registry and returns only a result, exactly as the source handler
mutates nothing). -/
theorem C6_dispatch_no_listeners (m : ChannelManager) (c : Channel) (msg : Msg)
    (h : hasKey m c = false) :
    m.dispatch c msg = ⟨[], none⟩ := by
  cases hs : getSubs m c with
  | none => exact dispatch_absent m c msg hs
  | some l => simp [hasKey, hs] at h

/-- Witness for C6 at a concrete input: a fresh manager has no entry for
channel me and dispatch on it does nothing. -/
theorem C6_dispatch_no_listeners_witness :
    mkManager.dispatch "me" "test 2" = ⟨[], none⟩ :=
  C6_dispatch_no_listeners mkManager "me" "test 2" (by decide)

/-- C2 counterexample: on a channel with two listeners where the first
throws, the other registered listener is NOT invoked and the error DOES
propagate out of the broker message handler, contradicting the claim that a
throwing listener is caught per-listener. -/
theorem C2_counterexample :
    ¬ ((((run mkManager [Op.sub "c" (cbThrow "boom"), Op.sub "c" cbOk]).dispatch "c" "m").error
          = none) ∨
        ((1, "m") ∈
          ((run mkManager [Op.sub "c" (cbThrow "boom"), Op.sub "c" cbOk]).dispatch "c" "m").trace)) := by
  decide

/-- C2 amended: a listener throwing during dispatch is not caught: the
listeners iterated before it are invoked with the message, the throwing
listener is invoked and its error propagates out of the broker message
handler, and the listeners after it are not invoked.  The registry is not
modified by the failure: dispatch reads the registry and returns only a
result, as the source handler mutates nothing. -/
theorem C2_throw_propagates (m : ChannelManager) (c : Channel) (msg : Msg)
    (pre post : List (Nat × Callback)) (i : Nat) (fn : Callback) (e : String)
    (hsubs : getSubs m c = some (pre ++ (i, fn) :: post))
    (hpre : ∀ p ∈ pre, p.2.throws = none) (hfn : fn.throws = some e) :
    m.dispatch c msg = ⟨pre.map (fun p => (p.1, msg)) ++ [(i, msg)], some e⟩ := by
  rw [dispatch_some m c msg _ hsubs]
  exact runListeners_throws pre post i fn e msg hpre hfn

/-- Witness for the amended C2 at a concrete input: with listener 0
throwing boom and listener 1 well behaved, dispatch invokes only listener 0
and the error escapes. -/
theorem C2_throw_propagates_witness :
    (run mkManager [Op.sub "c" (cbThrow "boom"), Op.sub "c" cbOk]).dispatch "c" "m" =
      ⟨[(0, "m")], some "boom"⟩ :=
  C2_throw_propagates (run mkManager [Op.sub "c" (cbThrow "boom"), Op.sub "c" cbOk])
    "c" "m" [] [(1, cbOk)] 0 (cbThrow "boom") "boom" (by decide) (by decide) (by decide)

/-- C3: broadcast first resolves the members of the room and issues exactly
one publish of the message per member channel; the aggregate outcome is
success exactly when every individual publish succeeds; each member is
published to exactly once (no retry), and the issued publishes do not
depend on the publish outcomes (no rollback). -/
theorem C3_broadcast_fanout (pub : Channel → Msg → Bool) (room : Room) (msg : Msg)
    (s : Store) (hwf : StoreWf s) :
    (ChannelManager.broadcast pub room msg s).1 =
        (ChannelManager.members room s).map (fun c => (c, msg)) ∧
    ((ChannelManager.broadcast pub room msg s).2 = true ↔
        ∀ c ∈ ChannelManager.members room s, pub c msg = true) ∧
    (∀ c ∈ ChannelManager.members room s,
        ((ChannelManager.broadcast pub room msg s).1).count (c, msg) = 1) ∧
    (∀ pub₂ : Channel → Msg → Bool,
        (ChannelManager.broadcast pub₂ room msg s).1 =
          (ChannelManager.broadcast pub room msg s).1) := by
  refine ⟨rfl, ?_, ?_, fun _ => rfl⟩
  · simp [ChannelManager.broadcast, ChannelManager.publish, List.all_eq_true]
  · intro c hc
    show ((ChannelManager.members room s).map (fun c => (c, msg))).count (c, msg) = 1
    rw [count_pair_map]
    exact List.count_eq_one_of_mem (storeGet_nodup s _ hwf) hc

/-- Witness for C3 at a concrete input: a store holding members me and you
for the party room, with a broker accepting every publish. -/
theorem C3_broadcast_fanout_witness :
    (ChannelManager.broadcast (fun _ _ => true) "party-room" "hello"
        [("room:party-room:channels", ["me", "you"])]).1 =
      (ChannelManager.members "party-room" [("room:party-room:channels", ["me", "you"])]).map
        (fun c => (c, "hello")) ∧
    ((ChannelManager.broadcast (fun _ _ => true) "party-room" "hello"
        [("room:party-room:channels", ["me", "you"])]).1).count ("me", "hello") = 1 := by
  have h := C3_broadcast_fanout (fun _ _ => true) "party-room" "hello"
    [("room:party-room:channels", ["me", "you"])] (by unfold StoreWf; decide)
  exact ⟨h.1, h.2.2.1 "me" (by decide)⟩

/-- C7: entering then leaving a room removes the channel from the
membership; from an empty room the sequence yields empty membership; enter
of an already-present member is a no-op and enter is idempotent; leave of
an absent member is a no-op. -/
theorem C7_enter_leave (room : Room) (c : Channel) (s : Store) :
    (c ∉ ChannelManager.members room
        (ChannelManager.leave room c (ChannelManager.enter room c s))) ∧
    (ChannelManager.members room s = [] →
        ChannelManager.members room
          (ChannelManager.leave room c (ChannelManager.enter room c s)) = []) ∧
    (c ∈ ChannelManager.members room s → ChannelManager.enter room c s = s) ∧
    (ChannelManager.enter room c (ChannelManager.enter room c s) =
        ChannelManager.enter room c s) ∧
    (StoreWf s → c ∉ ChannelManager.members room s →
        ChannelManager.leave room c s = s) := by
  have henter_mem : c ∈ ChannelManager.members room (ChannelManager.enter room c s) := by
    show c ∈ storeGet (sadd s (subscribersKey room) c) (subscribersKey room)
    rw [storeGet_sadd_eq]
    by_cases hv : c ∈ storeGet s (subscribersKey room)
    · rw [if_pos hv]
      exact hv
    · rw [if_neg hv]
      simp
  have henter_present : ∀ s₀ : Store, c ∈ ChannelManager.members room s₀ →
      ChannelManager.enter room c s₀ = s₀ := by
    intro s₀ hmem
    show sadd s₀ (subscribersKey room) c = s₀
    simp only [sadd]
    have hmem₂ : c ∈ storeGet s₀ (subscribersKey room) := hmem
    rw [if_pos hmem₂]
  refine ⟨?_, ?_, henter_present s, henter_present _ henter_mem, ?_⟩
  · show c ∉ storeGet (srem _ (subscribersKey room) c) (subscribersKey room)
    rw [storeGet_srem_eq]
    intro hmem
    have := (List.mem_filter.mp hmem).2
    simp at this
  · intro hnil
    show storeGet (srem _ (subscribersKey room) c) (subscribersKey room) = []
    rw [storeGet_srem_eq]
    have : storeGet (ChannelManager.enter room c s) (subscribersKey room) = [c] := by
      show storeGet (sadd s (subscribersKey room) c) (subscribersKey room) = [c]
      rw [storeGet_sadd_eq]
      have hnil₂ : storeGet s (subscribersKey room) = [] := hnil
      rw [hnil₂]
      simp
    rw [this]
    simp
  · intro hwf hmem
    show srem s (subscribersKey room) c = s
    unfold srem
    have hfe : (storeGet s (subscribersKey room)).filter (fun x => x ≠ c) =
        storeGet s (subscribersKey room) := by
      apply List.filter_eq_self.mpr
      intro x hx
      simp
      exact fun hc => hmem (hc ▸ hx)
    rw [hfe]
    by_cases hnil : storeGet s (subscribersKey room) = []
    · rw [if_pos hnil]
      exact storeDel_absent s _ (storeGet_nil_no_key s _ hwf hnil)
    · rw [if_neg hnil]
      exact alistSet_get_self s _ _ (alistGet_of_storeGet_ne_nil s _ hnil)

/-- Witness for C7 at a concrete input: on the empty store, entering then
leaving the party room with channel me yields empty membership, and leaving
when absent is the identity. -/
theorem C7_enter_leave_witness :
    ChannelManager.members "party-room"
      (ChannelManager.leave "party-room" "me"
        (ChannelManager.enter "party-room" "me" [])) = [] ∧
    ChannelManager.leave "party-room" "me" [] = [] := by
  have h := C7_enter_leave "party-room" "me" []
  exact ⟨h.2.1 (by decide), h.2.2.2.2 (by unfold StoreWf; decide) (by decide)⟩

/-- C8: closing a room deletes its entire member set: membership reads back
empty, no binding for the room key remains, closing a room that never
existed is the identity, close is idempotent (safe on an already-empty
room), and no other room key is affected. -/
theorem C8_close_deletes (room : Room) (s : Store) :
    ChannelManager.members room (ChannelManager.close room s) = [] ∧
    (∀ e ∈ ChannelManager.close room s, e.1 ≠ subscribersKey room) ∧
    ((∀ e ∈ s, e.1 ≠ subscribersKey room) → ChannelManager.close room s = s) ∧
    (ChannelManager.close room (ChannelManager.close room s) =
        ChannelManager.close room s) ∧
    (∀ k : String, k ≠ subscribersKey room →
        storeGet (ChannelManager.close room s) k = storeGet s k) := by
  refine ⟨storeGet_del_eq s _, alistDel_keys_ne s _, storeDel_absent s _, ?_, ?_⟩
  · exact storeDel_absent _ _ (alistDel_keys_ne s _)
  · intro k hk
    exact storeGet_del_ne s _ k hk

/-- Witness for C8 at a concrete input: closing the party room in a store
where only that room exists; closing a room with no binding is the
identity and other keys are untouched. -/
theorem C8_close_deletes_witness :
    ChannelManager.members "party-room"
      (ChannelManager.close "party-room" [("room:party-room:channels", ["me", "you"])]) = [] ∧
    ChannelManager.close "other" [("room:party-room:channels", ["me", "you"])] =
      [("room:party-room:channels", ["me", "you"])] ∧
    storeGet (ChannelManager.close "party-room" [("room:party-room:channels", ["me", "you"])])
      "room:other:channels" =
      storeGet [("room:party-room:channels", ["me", "you"])] "room:other:channels" := by
  refine ⟨(C8_close_deletes "party-room" [("room:party-room:channels", ["me", "you"])]).1,
    (C8_close_deletes "other" [("room:party-room:channels", ["me", "you"])]).2.2.1 (by decide),
    (C8_close_deletes "party-room" [("room:party-room:channels", ["me", "you"])]).2.2.2.2
      "room:other:channels" (by decide)⟩

/-- C9: the durable store key is derived deterministically from the room
name as the fixed string room: followed by the room id followed by the
fixed string :channels, and every one of enter, leave, members, close and
broadcast addresses the store through exactly that key: the mutating
operations leave every other key untouched. -/
theorem C9_key_derivation :
    (∀ room : Room, subscribersKey room = "room:" ++ room ++ ":channels") ∧
    (∀ (room : Room) (c : Channel) (s : Store),
        ChannelManager.enter room c s = sadd s (subscribersKey room) c) ∧
    (∀ (room : Room) (c : Channel) (s : Store),
        ChannelManager.leave room c s = srem s (subscribersKey room) c) ∧
    (∀ (room : Room) (s : Store),
        ChannelManager.members room s = storeGet s (subscribersKey room)) ∧
    (∀ (room : Room) (s : Store),
        ChannelManager.close room s = storeDel s (subscribersKey room)) ∧
    (∀ (pub : Channel → Msg → Bool) (room : Room) (msg : Msg) (s : Store),
        ChannelManager.broadcast pub room msg s =
          ((storeGet s (subscribersKey room)).map (fun c => (c, msg)),
            (storeGet s (subscribersKey room)).all (fun c => pub c msg))) ∧
    (∀ (room : Room) (c : Channel) (s : Store) (k : String), k ≠ subscribersKey room →
        storeGet (ChannelManager.enter room c s) k = storeGet s k ∧
        storeGet (ChannelManager.leave room c s) k = storeGet s k ∧
        storeGet (ChannelManager.close room s) k = storeGet s k) := by
  refine ⟨fun _ => rfl, fun _ _ _ => rfl, fun _ _ _ => rfl, fun _ _ => rfl,
    fun _ _ => rfl, fun _ _ _ _ => rfl, ?_⟩
  intro room c s k hk
  exact ⟨storeGet_sadd_ne s _ c k hk, storeGet_srem_ne s _ c k hk,
    storeGet_del_ne s _ k hk⟩

/-- Witness for C9 at a concrete input: the party-room key, and the
frame property of the three mutating operations at a different key. -/
theorem C9_key_derivation_witness :
    subscribersKey "party-room" = "room:party-room:channels" ∧
    storeGet (ChannelManager.enter "party-room" "me" []) "room:other:channels" =
      storeGet ([] : Store) "room:other:channels" := by
  refine ⟨by decide, ?_⟩
  exact (C9_key_derivation.2.2.2.2.2.2 "party-room" "me" [] "room:other:channels"
    (by decide)).1

/-- C10: broadcasting to a room whose member set is empty or absent
resolves successfully and issues zero publishes. -/
theorem C10_broadcast_empty (pub : Channel → Msg → Bool) (room : Room) (msg : Msg)
    (s : Store) (h : ChannelManager.members room s = []) :
    ChannelManager.broadcast pub room msg s = ([], true) := by
  unfold ChannelManager.broadcast
  rw [h]
  rfl

/-- Witness for C10 at a concrete input: the empty store has no members for
the party room and broadcast succeeds with no publishes. -/
theorem C10_broadcast_empty_witness :
    ChannelManager.broadcast (fun _ _ => false) "party-room" "hello" [] = ([], true) :=
  C10_broadcast_empty (fun _ _ => false) "party-room" "hello" [] (by decide)

end SSE
